import Mathlib

/-!
Verification of the chunked TTS pipeline of `AudioTool`.

The definitions below are a shallow embedding of the Python sources:
  * `split_text_into_chunks`  — `TTSConverter.split_text_into_chunks`
    (`tts_converter_py313.py`, parametrised over the size bounds exactly as in
    `TTSConverterAPI.split_text_into_chunks` of `tts_api.py`; the algorithm is
    byte-identical in both files),
  * `CustomSRTMaker`          — `custom_srt_generator.py` / `tts_converter_py313.py`,
  * `generate_all_chunks`     — `TTSConverter.generate_all_chunks`,
  * `generate_chunk_audio_robust` — `TTSConverter.generate_chunk_audio_robust`.

Text is modelled as `List Char` (Python strings are sequences of code points;
`len` / slicing are positional).  Python float millisecond arithmetic is
modelled by exact rationals: all operations involved (`/ 10000`, `//`, `%`,
`int`) are exact on the tick ranges the program can encounter.
-/

deriving instance DecidableEq for Except

namespace AudioTool

/-- ASCII whitespace as recognised both by Python's `str.strip()` and by the
regex class `\s` (space, tab, newline, carriage return, vertical tab, form
feed). -/
def pyIsSpace (c : Char) : Bool :=
  c == ' ' || c == '\t' || c == '\n' || c == '\r' || c == Char.ofNat 11 || c == Char.ofNat 12

/-- Length of the maximal whitespace run at the head of the list (the greedy
extent of `\s+` / `\s*`). -/
def wsRunLen : List Char → Nat
  | [] => 0
  | c :: cs => if pyIsSpace c then wsRunLen cs + 1 else 0

/-- Python `str.strip()`: remove leading and trailing whitespace. -/
def pyStrip (s : List Char) : List Char :=
  ((s.dropWhile pyIsSpace).reverse.dropWhile pyIsSpace).reverse

/-- Sentence terminators of the regex `[.!?]\s+`. -/
def isSentEnd (c : Char) : Bool :=
  c == '.' || c == '!' || c == '?'

/-- Match of `[.!?]\s+` at the head of the list: greedy match length, if any. -/
def matchSentEnd : List Char → Option Nat
  | c :: d :: rest => if isSentEnd c && pyIsSpace d then some (2 + wsRunLen rest) else none
  | _ => none

/-- Index of the last `'\n'` inside the leading whitespace run of the list.
This is where the greedy `\s*` of `\n\s*\n` backtracks to find its closing
`'\n'`. -/
def lastNlInWsRun : List Char → Option Nat
  | [] => none
  | c :: cs =>
    if pyIsSpace c then
      match lastNlInWsRun cs with
      | some j => some (j + 1)
      | none => if c == '\n' then some 0 else none
    else none

/-- Match of `\n\s*\n` at the head of the list: the greedy match ends just
after the last `'\n'` of the whitespace run. -/
def matchParaBreak : List Char → Option Nat
  | [] => none
  | c :: rest =>
    if c == '\n' then
      match lastNlInWsRun rest with
      | some j => some (j + 2)
      | none => none
    else none

/-- Match of `,\s+` at the head of the list. -/
def matchComma : List Char → Option Nat
  | c :: d :: rest => if c == ',' && pyIsSpace d then some (2 + wsRunLen rest) else none
  | _ => none

/-- Match of `\s+` at the head of the list. -/
def matchWsRun : List Char → Option Nat
  | [] => none
  | c :: cs => if pyIsSpace c then some (1 + wsRunLen cs) else none

/-- End position of the last regex match in a string, as
`list(re.finditer(pat, s))[-1].end()`: scan every position from left to right
and remember the end of the most recent match.  For the four patterns used by
the splitter this agrees with `finditer`'s non-overlapping scan: matches of
`[.!?]\s+` and `,\s+` cannot overlap (their interiors are whitespace, their
starts are not), and for `\s+` and `\n\s*\n` every start inside one maximal
whitespace run yields the same greedy end as the run's first start. -/
def lastMatchEndGo (f : List Char → Option Nat) : Nat → List Char → Option Nat → Option Nat
  | _, [], acc => acc
  | p, c :: cs, acc =>
    lastMatchEndGo f (p + 1) cs
      (match f (c :: cs) with
       | some e => some (p + e)
       | none => acc)

def lastMatchEnd (f : List Char → Option Nat) (s : List Char) : Option Nat :=
  lastMatchEndGo f 0 s none

/-- The break-point search of `split_text_into_chunks`: try
`[.!?]\s+`, then `\n\s*\n`, then `,\s+`, then `\s+`; for the first pattern
that has a match in the window, return the end of its last match. -/
def findBreakEnd (s : List Char) : Option Nat :=
  match lastMatchEnd matchSentEnd s with
  | some e => some e
  | none =>
    match lastMatchEnd matchParaBreak s with
    | some e => some e
    | none =>
      match lastMatchEnd matchComma s with
      | some e => some e
      | none => lastMatchEnd matchWsRun s

/-- Python slice `text[a:b]` (for `a ≤ b`). -/
def pySlice (text : List Char) (a b : Nat) : List Char :=
  (text.drop a).take (b - a)

/-- `target_end = min(current_pos + chunk_max, text_length)`. -/
def targetEndOf (text : List Char) (cmax cur : Nat) : Nat :=
  min (cur + cmax) text.length

/-- The `actual_end` computed by one iteration of the splitting loop in the
case `target_end < len(text)`. -/
def actualEndOf (text : List Char) (cmin cmax cur : Nat) : Nat :=
  let targetEnd := targetEndOf text cmax cur
  let searchStart := cur + cmin
  match findBreakEnd (pySlice text searchStart targetEnd) with
  | some e => searchStart + e
  | none => targetEnd

/-- The `while current_pos < text_length` loop of `split_text_into_chunks`,
made structural with a fuel parameter (the loop of the source strictly
advances `current_pos` — proved below for the bounds the program uses,
`0 < cmin ≤ cmax` — so a fuel of `text.length + 1` is never exhausted). -/
def splitChunksLoop (text : List Char) (cmin cmax : Nat) : Nat → Nat → List (List Char)
  | 0, _ => []
  | fuel + 1, cur =>
    if cur < text.length then
      if targetEndOf text cmax cur = text.length then
        let chunk := pyStrip (text.drop cur)
        if chunk.isEmpty then [] else [chunk]
      else
        let actualEnd := actualEndOf text cmin cmax cur
        let chunk := pyStrip (pySlice text cur actualEnd)
        let tail := splitChunksLoop text cmin cmax fuel actualEnd
        if chunk.isEmpty then tail else chunk :: tail
    else []

/-- `TTSConverter.split_text_into_chunks`, parametrised over the chunk size
bounds (the `py313` converter fixes `cmin = 1500`, `cmax = 2000`;
`tts_api.py` passes them as arguments). -/
def split_text_into_chunks (text : List Char) (cmin cmax : Nat) : List (List Char) :=
  splitChunksLoop text cmin cmax (text.length + 1) 0

example : split_text_into_chunks "aaaa".data 2 3 = ["aaa".data, "a".data] := by decide

example :
    split_text_into_chunks "ab. cd. efgh".data 2 6
      = ["ab.".data, "cd.".data, "efgh".data] := by
  decide

example : split_text_into_chunks "".data 2 3 = [] := by decide

example : split_text_into_chunks "ab,  cdefg".data 1 6 = ["ab,".data, "cdefg".data] := by decide

/-! ### `CustomSRTMaker` (`custom_srt_generator.py`, duplicated in
`tts_converter_py313.py`) -/

/-- A streamed Edge-TTS event: a Python dict with a `"type"` entry and,
depending on the type, `"data"` (audio bytes), `"offset"` / `"duration"`
(integer 100ns ticks) and `"text"` entries. -/
structure TtsEvent where
  type : List Char
  offset : Nat := 0
  duration : Nat := 0
  text : List Char := []
  data : List Nat := []
deriving DecidableEq

/-- One SRT cue as built by `CustomSRTMaker.feed_sentence` (`stop` stands for
the dict key `'end'`, a reserved word here). -/
structure SrtCue where
  index : Nat
  start : List Char
  stop : List Char
  text : List Char
deriving DecidableEq

/-- The state of a `CustomSRTMaker`. -/
structure SRTMaker where
  cues : List SrtCue
  cue_index : Nat
deriving DecidableEq

/-- `CustomSRTMaker.__init__`. -/
def SRTMaker.init : SRTMaker := ⟨[], 1⟩

/-- Python `f"{n:0wd}"` for a nonnegative value: decimal digits, zero-padded
to a minimum width `w`. -/
def padNum (w : Nat) (n : Nat) : List Char :=
  let ds := Nat.toDigits 10 n
  List.replicate (w - ds.length) '0' ++ ds

/-- Python float floor division `x // y`, on the exact rational model of the
float arithmetic. -/
def pyFloorDiv (x y : ℚ) : Int := ⌊x / y⌋

/-- Python float modulo `x % y` (for `y > 0`): `x - y * (x // y)`. -/
def pyMod (x y : ℚ) : ℚ := x - y * ⌊x / y⌋

/-- `CustomSRTMaker._ms_to_srt_time`.  Python `int(..)` truncates toward
zero, which on the nonnegative values produced here is the floor; the outer
`int(..)` around the already-integral floor divisions is the identity. -/
def ms_to_srt_time (milliseconds : ℚ) : List Char :=
  let hours := (pyFloorDiv milliseconds 3600000).toNat
  let minutes := (pyFloorDiv (pyMod milliseconds 3600000) 60000).toNat
  let seconds := (pyFloorDiv (pyMod milliseconds 60000) 1000).toNat
  let ms := (⌊pyMod milliseconds 1000⌋).toNat
  padNum 2 hours ++ ':' :: (padNum 2 minutes ++ ':' :: (padNum 2 seconds ++ ',' :: padNum 3 ms))

/-- `CustomSRTMaker.feed_sentence`. -/
def feed_sentence (st : SRTMaker) (ev : TtsEvent) : SRTMaker :=
  if ev.type ≠ "SentenceBoundary".data then st
  else
    let start_ms : ℚ := (ev.offset : ℚ) / 10000
    let duration_ms : ℚ := (ev.duration : ℚ) / 10000
    let end_ms : ℚ := start_ms + duration_ms
    let cue : SrtCue :=
      { index := st.cue_index
        start := ms_to_srt_time start_ms
        stop := ms_to_srt_time end_ms
        text := pyStrip ev.text }
    if cue.text.isEmpty then st
    else { cues := st.cues ++ [cue], cue_index := st.cue_index + 1 }

/-- Python `"\n".join`. -/
def joinNl : List (List Char) → List Char
  | [] => []
  | [l] => l
  | l :: l' :: ls => l ++ '\n' :: joinNl (l' :: ls)

/-- The `srt_lines` list built by `CustomSRTMaker.get_srt`: per cue the index
line, the `start --> end` line, the text line and an empty line. -/
def srtLines (cues : List SrtCue) : List (List Char) :=
  (cues.map fun cue =>
    [Nat.toDigits 10 cue.index,
     cue.start ++ " --> ".data ++ cue.stop,
     cue.text,
     []]).flatten

/-- `CustomSRTMaker.get_srt`. -/
def get_srt (st : SRTMaker) : List Char :=
  if st.cues.isEmpty then [] else joinNl (srtLines st.cues)

/-- Feeding a whole event sequence to one accumulator. -/
def feedAll (st : SRTMaker) (evs : List TtsEvent) : SRTMaker :=
  evs.foldl feed_sentence st

/-- The tick-to-field arithmetic of `ms_to_srt_time` applied to an exact
tick count `t` (milliseconds `t / 10000`), expressed in natural-number
arithmetic.  `ms_to_srt_time_ticks` below proves that the rational float
model computes exactly this. -/
def srtTimeOfTicks (t : Nat) : List Char :=
  padNum 2 (t / 36000000000) ++ ':' ::
    (padNum 2 (t % 36000000000 / 600000000) ++ ':' ::
      (padNum 2 (t % 600000000 / 10000000) ++ ',' :: padNum 3 (t % 10000000 / 10000)))

/-! ### `generate_all_chunks` / `generate_chunk_with_semaphore`
(`tts_converter_py313.py`).

The value returned by `asyncio.gather` lists each task's result in task
order, independently of completion interleaving, and the semaphore bounds
only which tasks run simultaneously; the returned value is therefore a pure
function of each task's own outcome, which is what is modelled here.  The
per-chunk synthesis outcome is abstracted as an oracle
`synth : index → chunk text → path-pair or raised message`. -/

/-- `generate_chunk_audio_robust` returns a `(audio_path, srt_path?)` pair. -/
abbrev SynthOutcome := Except (List Char) (List Char × Option (List Char))

/-- `enumerate(chunks, 1)`. -/
def enumFrom (i : Nat) : List α → List (Nat × α)
  | [] => []
  | a :: as => (i, a) :: enumFrom (i + 1) as

/-- The tasks spawned by `generate_all_chunks`: chunks whose stripped text is
empty are skipped (`if not chunk.strip(): continue`) and get no task. -/
def validTasks (chunks : List (List Char)) : List (Nat × List Char) :=
  (enumFrom 1 chunks).filter (fun ic => !(pyStrip ic.2).isEmpty)

/-- `generate_chunk_with_semaphore`: awaits the chunk's synthesis under the
semaphore and converts success or exception into the value
`(index, chunk_file, error)` — it never lets the exception escape. -/
def generate_chunk_with_semaphore (synth : Nat → List Char → SynthOutcome)
    (index : Nat) (chunk : List Char) :
    Nat × Option (List Char × Option (List Char)) × Option (List Char) :=
  match synth index chunk with
  | .ok f => (index, some f, none)
  | .error e => (index, none, some e)

/-- The success/failure partition produced by the
`for index, chunk_file, error in sorted(results, key=lambda x: x[0])` loop:
a truthy `chunk_file` (always the case for the returned path pair) goes to
`chunk_files`, otherwise `(index, error)` goes to `errors`. -/
structure BatchOutcome where
  chunk_files : List (List Char × Option (List Char))
  errors : List (Nat × Option (List Char))
deriving DecidableEq

def partitionResults
    (results : List (Nat × Option (List Char × Option (List Char)) × Option (List Char))) :
    BatchOutcome :=
  let sorted := results.mergeSort (fun a b => Nat.ble a.1 b.1)
  { chunk_files := sorted.filterMap (fun r => r.2.1)
    errors := sorted.filterMap (fun r =>
      match r.2.1 with
      | some _ => none
      | none => some (r.1, r.2.2)) }

/-- The `results` value of `asyncio.gather(*tasks)`: one entry per spawned
task, in task (= ascending chunk index) order. -/
def batchResults (synth : Nat → List Char → SynthOutcome)
    (chunks : List (List Char)) :
    List (Nat × Option (List Char × Option (List Char)) × Option (List Char)) :=
  (validTasks chunks).map (fun ic => generate_chunk_with_semaphore synth ic.1 ic.2)

/-- `generate_all_chunks`.  `max_concurrent` is the semaphore capacity; it
constrains scheduling only, so the result does not depend on it.  The model
returns the partition (the source returns `chunk_files` and prints
`errors`), or the `RuntimeError` message when no chunk succeeded. -/
def generate_all_chunks (synth : Nat → List Char → SynthOutcome)
    (chunks : List (List Char)) (_max_concurrent : Nat) :
    Except (List Char) BatchOutcome :=
  let out := partitionResults (batchResults synth chunks)
  if out.chunk_files.isEmpty then
    .error "No audio chunks were successfully generated".data
  else
    .ok out

/-- The chunk indices of the results that went into the success list
(`chunk_files`), in emission order. -/
def successIndexList
    (rs : List (Nat × Option (List Char × Option (List Char)) × Option (List Char))) :
    List Nat :=
  ((rs.mergeSort (fun a b => Nat.ble a.1 b.1)).filter (fun r => r.2.1.isSome)).map Prod.fst

/-- The chunk indices of the failure list (`errors`), in emission order. -/
def failureIndexList
    (rs : List (Nat × Option (List Char × Option (List Char)) × Option (List Char))) :
    List Nat :=
  (partitionResults rs).errors.map Prod.fst

/-! ### `generate_chunk_audio_robust` (`tts_converter_py313.py`)

The file system is modelled explicitly as an association of paths to byte
contents.  Paths are folder-free names (the converter writes everything into
one folder).  The audio file handle is open for the whole stream loop and
receives the audio payloads in arrival order; since every failure path
deletes the file, recording the final content once is equivalent. -/

/-- File contents: audio artifacts hold bytes, subtitle artifacts hold
text. -/
inductive FileData where
  | bytes (bs : List Nat)
  | text (s : List Char)
deriving DecidableEq

/-- `stat().st_size` (zero exactly when the content is empty; the text/byte
distinction is irrelevant to the emptiness check). -/
def FileData.size : FileData → Nat
  | .bytes bs => bs.length
  | .text s => s.length

instance : Inhabited FileData := ⟨.bytes []⟩

abbrev FS := List (List Char × FileData)

def fsGet (fs : FS) (p : List Char) : Option FileData :=
  (fs.find? (fun e => e.1 == p)).map (·.2)

def fsExists (fs : FS) (p : List Char) : Bool :=
  (fsGet fs p).isSome

def fsSize (fs : FS) (p : List Char) : Nat :=
  ((fsGet fs p).map FileData.size).getD 0

def fsDelete (fs : FS) (p : List Char) : FS :=
  fs.filter (fun e => !(e.1 == p))

def fsSet (fs : FS) (p : List Char) (content : FileData) : FS :=
  (p, content) :: fsDelete fs p

/-- `f"{prefix}_{chunk_num:03d}.mp3"`. -/
def chunkMp3Name (pfx : List Char) (n : Nat) : List Char :=
  pfx ++ '_' :: (padNum 3 n ++ ".mp3".data)

/-- `f"{prefix}_{chunk_num:03d}.srt"`. -/
def chunkSrtName (pfx : List Char) (n : Nat) : List Char :=
  pfx ++ '_' :: (padNum 3 n ++ ".srt".data)

/-- `f"TTS generation failed for chunk {chunk_num}: {e}"`. -/
def chunkError (n : Nat) (cause : List Char) : List Char :=
  "TTS generation failed for chunk ".data ++ Nat.toDigits 10 n ++ ": ".data ++ cause

/-- One pass of the `async for chunk in communicate.stream()` body: audio
payloads are appended in arrival order; `SentenceBoundary` events are fed to
the SRT maker when one was created (`generate_srt`); other events are
ignored. -/
def streamStep (generate_srt : Bool) (acc : List Nat × SRTMaker) (ev : TtsEvent) :
    List Nat × SRTMaker :=
  if ev.type = "audio".data then (acc.1 ++ ev.data, acc.2)
  else if ev.type = "SentenceBoundary".data ∧ generate_srt then
    (acc.1, feed_sentence acc.2 ev)
  else acc

/-- `if path.exists(): path.unlink()`. -/
def deleteIfExists (fs : FS) (p : List Char) : FS :=
  if fsExists fs p then fsDelete fs p else fs

/-- The `except` handler's clean-up: delete the audio artifact if present,
then the subtitle artifact if one was addressed and is present. -/
def cleanupArtifacts (fs : FS) (output_path : List Char) (srt_path : Option (List Char)) : FS :=
  match srt_path with
  | some sp => deleteIfExists (deleteIfExists fs output_path) sp
  | none => deleteIfExists fs output_path

/-- `generate_chunk_audio_robust`.  The external stream is modelled by the
events it delivers plus, optionally, the message of the exception it raises
after delivering them (`streamRaises`).  Returns the final file system and
either the `(audio_path, srt_path?)` pair or the raised `RuntimeError`
message. -/
def generate_chunk_audio_robust (fs : FS) (chunk_num : Nat) (pfx : List Char)
    (generate_srt : Bool) (events : List TtsEvent) (streamRaises : Option (List Char)) :
    FS × SynthOutcome :=
  let output_path := chunkMp3Name pfx chunk_num
  let srt_path : Option (List Char) :=
    if generate_srt then some (chunkSrtName pfx chunk_num) else none
  -- `output_path.open("wb")` creates/truncates the audio artifact,
  -- then the stream loop runs over the delivered events
  let res := events.foldl (streamStep generate_srt) ([], SRTMaker.init)
  let fs1 := fsSet fs output_path (.bytes res.1)
  match streamRaises with
  | some msg =>
    (cleanupArtifacts fs1 output_path srt_path, .error (chunkError chunk_num msg))
  | none =>
    if !fsExists fs1 output_path then
      (cleanupArtifacts fs1 output_path srt_path,
       .error (chunkError chunk_num ("Output file was not created: ".data ++ output_path)))
    else if fsSize fs1 output_path = 0 then
      (cleanupArtifacts fs1 output_path srt_path,
       .error (chunkError chunk_num ("Output file is empty: ".data ++ output_path)))
    else
      let srt_content := get_srt res.2
      match srt_path with
      | some sp =>
        if srt_content.isEmpty then (fs1, .ok (output_path, none))
        else (fsSet fs1 sp (.text srt_content), .ok (output_path, some sp))
      | none => (fs1, .ok (output_path, none))

/-! ## Supporting lemmas: exact evaluation of the float millisecond model -/

lemma floor_natCast_div_toNat (a c : ℕ) : (⌊(a : ℚ) / (c : ℚ)⌋).toNat = a / c := by
  rw [Int.floor_toNat, Nat.floor_div_nat, Nat.floor_natCast]

lemma pyFloorDiv_div_nat (a c b : ℕ) :
    (pyFloorDiv ((a : ℚ) / (c : ℚ)) (b : ℚ)).toNat = a / (c * b) := by
  unfold pyFloorDiv
  rw [div_div, ← Nat.cast_mul, floor_natCast_div_toNat]

lemma pyMod_nat (a c b : ℕ) (hc : 0 < c) (hb : 0 < b) :
    pyMod ((a : ℚ) / (c : ℚ)) (b : ℚ) = ((a % (c * b) : ℕ) : ℚ) / (c : ℚ) := by
  unfold pyMod
  have hfl : ⌊(a : ℚ) / (c : ℚ) / (b : ℚ)⌋ = ((a / (c * b) : ℕ) : ℤ) := by
    rw [div_div, ← Nat.cast_mul, ← Int.natCast_floor_eq_floor (by positivity),
      Nat.floor_div_nat, Nat.floor_natCast]
  have hfl2 : ((⌊(a : ℚ) / (c : ℚ) / (b : ℚ)⌋ : ℤ) : ℚ) = ((a / (c * b) : ℕ) : ℚ) := by
    rw [hfl]
    norm_cast
  have h' : ((c * b : ℕ) : ℚ) * ((a / (c * b) : ℕ) : ℚ) + ((a % (c * b) : ℕ) : ℚ)
      = (a : ℚ) := by
    exact_mod_cast congrArg (Nat.cast : ℕ → ℚ) (Nat.div_add_mod a (c * b))
  have hc' : (c : ℚ) ≠ 0 := by positivity
  rw [hfl2, eq_div_iff hc', sub_mul, div_mul_cancel₀ _ hc']
  push_cast at h'
  linear_combination -h'

/-- The rational (exact-float) computation of `_ms_to_srt_time` on a tick
count `t` (fed as `t / 10000` milliseconds) equals the pure natural-number
field arithmetic of `srtTimeOfTicks`. -/
theorem ms_to_srt_time_ticks (t : ℕ) :
    ms_to_srt_time ((t : ℚ) / 10000) = srtTimeOfTicks t := by
  have e4 : (10000 : ℚ) = ((10000 : ℕ) : ℚ) := by norm_num
  have e36 : (3600000 : ℚ) = ((3600000 : ℕ) : ℚ) := by norm_num
  have e6 : (60000 : ℚ) = ((60000 : ℕ) : ℚ) := by norm_num
  have e1 : (1000 : ℚ) = ((1000 : ℕ) : ℚ) := by norm_num
  unfold ms_to_srt_time srtTimeOfTicks pyFloorDiv
  rw [e4, e36, e6, e1]
  rw [pyMod_nat t 10000 3600000 (by norm_num) (by norm_num),
    pyMod_nat t 10000 60000 (by norm_num) (by norm_num),
    pyMod_nat t 10000 1000 (by norm_num) (by norm_num)]
  rw [div_div, ← Nat.cast_mul, floor_natCast_div_toNat,
    div_div, ← Nat.cast_mul, floor_natCast_div_toNat,
    div_div, ← Nat.cast_mul, floor_natCast_div_toNat,
    floor_natCast_div_toNat]

/-- The sum of two exactly-converted tick amounts (`end_ms = start_ms +
duration_ms`) is the conversion of the tick sum. -/
lemma tick_ms_add (o d : ℕ) :
    (o : ℚ) / 10000 + (d : ℚ) / 10000 = ((o + d : ℕ) : ℚ) / 10000 := by
  push_cast
  ring

/-- Closed form of `feed_sentence` on a `SentenceBoundary` event, with the
time fields evaluated exactly. -/
lemma feed_sentence_boundary (st : SRTMaker) (o d : ℕ) (txt : List Char) :
    feed_sentence st ⟨"SentenceBoundary".data, o, d, txt, []⟩
      = if (pyStrip txt).isEmpty then st
        else { cues := st.cues ++
                 [⟨st.cue_index, srtTimeOfTicks o, srtTimeOfTicks (o + d), pyStrip txt⟩],
               cue_index := st.cue_index + 1 } := by
  unfold feed_sentence
  rw [if_neg (by simp)]
  simp only [tick_ms_add, ms_to_srt_time_ticks]

example :
    get_srt (feed_sentence SRTMaker.init
      { type := "SentenceBoundary".data, offset := 0, duration := 25000000,
        text := "Hello.".data })
      = "1\n00:00:00,000 --> 00:00:02,500\nHello.\n".data := by
  rw [feed_sentence_boundary]
  decide

/-! ## C5: sequential, gapless cue numbering -/

/-- The numbering invariant maintained by `feed_sentence`: the stored cues
carry exactly the indices `1..n`, and the next index to assign is `n + 1`. -/
def cueNumberingOk (st : SRTMaker) : Prop :=
  st.cues.map SrtCue.index = List.range' 1 st.cues.length
    ∧ st.cue_index = st.cues.length + 1

lemma feed_sentence_numbering {st : SRTMaker} (ev : TtsEvent)
    (h : cueNumberingOk st) : cueNumberingOk (feed_sentence st ev) := by
  obtain ⟨h1, h2⟩ := h
  unfold feed_sentence
  split
  · exact ⟨h1, h2⟩
  · dsimp only
    split
    · exact ⟨h1, h2⟩
    · refine ⟨?_, ?_⟩
      · simp only [List.map_append, List.length_append, List.map_cons, List.map_nil,
          List.length_cons, List.length_nil]
        rw [h1, h2, List.range'_1_concat]
        simp [Nat.add_comm]
      · simp [h2, Nat.add_comm]

lemma feedAll_numbering (evs : List TtsEvent) {st : SRTMaker}
    (h : cueNumberingOk st) : cueNumberingOk (feedAll st evs) := by
  induction evs generalizing st with
  | nil => exact h
  | cons ev evs ih => exact ih (feed_sentence_numbering ev h)

/-- C5: an event whose text is empty after trimming is discarded without
consuming a cue number; every accepted event gets the next sequential index
starting at 1, so after any sequence of `feed` calls the stored cues carry
exactly the indices `1..n`, gapless and without reuse.  In particular one
accepted event followed by one empty-after-trim event yields exactly one
cue, numbered 1. -/
theorem srt_cue_numbering_gapless (evs : List TtsEvent) :
    ((feedAll SRTMaker.init evs).cues.map SrtCue.index
        = List.range' 1 (feedAll SRTMaker.init evs).cues.length
      ∧ (feedAll SRTMaker.init evs).cue_index
          = (feedAll SRTMaker.init evs).cues.length + 1)
    ∧ (feedAll SRTMaker.init
        [⟨"SentenceBoundary".data, 0, 25000000, "Hello.".data, []⟩,
         ⟨"SentenceBoundary".data, 25000000, 10000000, "  \t ".data, []⟩]).cues.map
          SrtCue.index = [1] := by
  constructor
  · exact feedAll_numbering evs ⟨rfl, rfl⟩
  · simp only [feedAll, List.foldl]
    rw [feed_sentence_boundary, feed_sentence_boundary]
    decide

/-! ## C7: tick-to-timestamp conversion -/

/-- The timestamp format stated by the spec: `hours = floor(ms/3600000)`,
`minutes = floor((ms mod 3600000)/60000)`, `seconds = floor((ms mod
60000)/1000)`, `millis = ms mod 1000` (truncated to the integer the `mmm`
field renders), each zero-padded (hours minimum width 2, millis width 3),
joined as `HH:MM:SS,mmm`.  `ms mod k` is the exact real remainder
`pyMod`. -/
def specTimeFormat (ms : ℚ) : List Char :=
  padNum 2 (⌊ms / 3600000⌋).toNat ++ ':' ::
    (padNum 2 (⌊pyMod ms 3600000 / 60000⌋).toNat ++ ':' ::
      (padNum 2 (⌊pyMod ms 60000 / 1000⌋).toNat ++ ',' :: padNum 3 (⌊pyMod ms 1000⌋).toNat))

/-- C7: an accepted `SentenceBoundary` event appends exactly one cue whose
start is `offsetTicks / 10000` milliseconds and whose end is start plus
`durationTicks / 10000` milliseconds, both rendered by the spec's floor
formulas; in particular `offset = 0`, `duration = 25000000`, text
`"Hello."` yields cue 1 with times `00:00:00,000` and `00:00:02,500`. -/
theorem srt_time_conversion (st : SRTMaker) (o d : ℕ) (txt : List Char)
    (h : pyStrip txt ≠ []) :
    (feed_sentence st ⟨"SentenceBoundary".data, o, d, txt, []⟩).cues
      = st.cues ++ [⟨st.cue_index,
          specTimeFormat ((o : ℚ) / 10000),
          specTimeFormat ((o : ℚ) / 10000 + (d : ℚ) / 10000),
          pyStrip txt⟩]
    ∧ (feed_sentence SRTMaker.init
        ⟨"SentenceBoundary".data, 0, 25000000, "Hello.".data, []⟩).cues
      = [⟨1, "00:00:00,000".data, "00:00:02,500".data, "Hello.".data⟩] := by
  constructor
  · have hfmt : ∀ ms : ℚ, specTimeFormat ms = ms_to_srt_time ms := fun _ => rfl
    rw [hfmt, hfmt]
    unfold feed_sentence
    rw [if_neg (by simp)]
    simp only []
    rw [if_neg (by simpa [List.isEmpty_iff] using h)]
  · rw [feed_sentence_boundary]
    decide

/-- Witness for `srt_time_conversion`. -/
theorem srt_time_conversion_witness :
    pyStrip "Hello.".data ≠ []
    ∧ (feed_sentence SRTMaker.init
        ⟨"SentenceBoundary".data, 0, 25000000, "Hello.".data, []⟩).cues
      = SRTMaker.init.cues ++ [⟨SRTMaker.init.cue_index,
          specTimeFormat ((0 : ℕ) / 10000 : ℚ),
          specTimeFormat (((0 : ℕ) : ℚ) / 10000 + ((25000000 : ℕ) : ℚ) / 10000),
          pyStrip "Hello.".data⟩] :=
  ⟨by decide,
   (srt_time_conversion SRTMaker.init 0 25000000 "Hello.".data (by decide)).1⟩

/-! ## C6: serialization format of `get_srt` -/

/-- The body of a cue's block without trailing separator:
`{index}\n{start} --> {end}\n{text}`. -/
def srtEntry (c : SrtCue) : List Char :=
  Nat.toDigits 10 c.index ++ '\n' :: ((c.start ++ " --> ".data ++ c.stop) ++ '\n' :: c.text)

/-- Joining blocks with a blank separator line (`"\n\n"`). -/
def joinBlankLine : List (List Char) → List Char
  | [] => []
  | [l] => l
  | l :: l' :: ls => l ++ '\n' :: '\n' :: joinBlankLine (l' :: ls)

lemma srtLines_cons (c : SrtCue) (rest : List SrtCue) :
    srtLines (c :: rest)
      = Nat.toDigits 10 c.index :: (c.start ++ " --> ".data ++ c.stop)
          :: c.text :: [] :: srtLines rest := by
  simp [srtLines]

lemma joinNl_srtLines_cons (c : SrtCue) (tail : List SrtCue) :
    joinNl (srtLines (c :: tail))
      = joinBlankLine ((c :: tail).map srtEntry) ++ ['\n'] := by
  induction tail generalizing c with
  | nil => simp [srtLines, joinNl, srtEntry, joinBlankLine]
  | cons c' rest ih =>
    have ih' := ih c'
    rw [srtLines_cons c' rest] at ih'
    rw [srtLines_cons, srtLines_cons c' rest]
    simp only [joinNl, List.nil_append, List.map_cons, joinBlankLine] at ih' ⊢
    rw [ih']
    simp [srtEntry, List.append_assoc]

/-- C6 counterexample: the claimed bit-exact form
`{index}\n{start} --> {end}\n{text}\n\n` does not hold for the final cue —
the serialization of a single accepted cue ends with a single `'\n'`, not
with the blank separator line. -/
theorem get_srt_final_blank_line_counterexample :
    get_srt (feed_sentence SRTMaker.init
        ⟨"SentenceBoundary".data, 0, 25000000, "Hello.".data, []⟩)
      = "1\n00:00:00,000 --> 00:00:02,500\nHello.\n".data
    ∧ get_srt (feed_sentence SRTMaker.init
        ⟨"SentenceBoundary".data, 0, 25000000, "Hello.".data, []⟩)
      ≠ "1\n00:00:00,000 --> 00:00:02,500\nHello.\n\n".data := by
  rw [feed_sentence_boundary]
  exact ⟨by decide, by decide⟩

/-- C6 amended: `get_srt` returns the empty output when no cue was
accepted, and otherwise one `{index}\n{start} --> {end}\n{text}` block per
cue in creation order, consecutive blocks separated by a blank line
(so every block but the last reads `{index}\n{start} --> {end}\n{text}\n\n`)
and a single trailing newline after the final block — the final block ends
`{text}\n`, without the blank separator line. -/
theorem get_srt_serialization (st : SRTMaker) :
    get_srt st
      = match st.cues with
        | [] => []
        | _ :: _ => joinBlankLine (st.cues.map srtEntry) ++ ['\n'] := by
  unfold get_srt
  cases h : st.cues with
  | nil => simp
  | cons c tail => simp [h, joinNl_srtLines_cons]

/-! ## Supporting lemmas: `pyStrip` -/

lemma pyStrip_length_le (s : List Char) : (pyStrip s).length ≤ s.length := by
  unfold pyStrip
  calc ((s.dropWhile pyIsSpace).reverse.dropWhile pyIsSpace).reverse.length
      = ((s.dropWhile pyIsSpace).reverse.dropWhile pyIsSpace).length :=
        List.length_reverse _
    _ ≤ (s.dropWhile pyIsSpace).reverse.length := (List.dropWhile_sublist _).length_le
    _ = (s.dropWhile pyIsSpace).length := List.length_reverse _
    _ ≤ s.length := (List.dropWhile_sublist _).length_le

lemma filter_nonWS_dropWhile (s : List Char) :
    (s.dropWhile pyIsSpace).filter (fun c => !pyIsSpace c)
      = s.filter (fun c => !pyIsSpace c) := by
  induction s with
  | nil => rfl
  | cons c cs ih =>
    by_cases h : pyIsSpace c
    · rw [List.dropWhile_cons_of_pos h, ih, List.filter_cons_of_neg (by simp [h])]
    · rw [List.dropWhile_cons_of_neg h]

/-- Stripping only removes whitespace: the non-whitespace characters are
untouched. -/
lemma filter_nonWS_pyStrip (s : List Char) :
    (pyStrip s).filter (fun c => !pyIsSpace c) = s.filter (fun c => !pyIsSpace c) := by
  unfold pyStrip
  rw [List.filter_reverse, filter_nonWS_dropWhile, List.filter_reverse,
    List.reverse_reverse, filter_nonWS_dropWhile]

lemma filter_nonWS_of_pyStrip_eq_nil {s : List Char} (h : pyStrip s = []) :
    s.filter (fun c => !pyIsSpace c) = [] := by
  rw [← filter_nonWS_pyStrip, h, List.filter_nil]

lemma exists_nonWS_of_pyStrip_ne_nil {s : List Char} (h : pyStrip s ≠ []) :
    ∃ a ∈ pyStrip s, pyIsSpace a = false := by
  unfold pyStrip at h ⊢
  have hd : ((s.dropWhile pyIsSpace).reverse.dropWhile pyIsSpace) ≠ [] := by
    intro hnil
    exact h (by rw [hnil]; rfl)
  exact ⟨((s.dropWhile pyIsSpace).reverse.dropWhile pyIsSpace).head hd,
    List.mem_reverse.mpr (List.head_mem hd),
    List.head_dropWhile_not pyIsSpace _ hd⟩

lemma pyStrip_ne_nil_of_exists {c : List Char} (hc : ∃ a ∈ c, pyIsSpace a = false) :
    pyStrip c ≠ [] := by
  obtain ⟨a, ham, ha⟩ := hc
  intro hnil
  have hfil : c.filter (fun x => !pyIsSpace x) = [] := filter_nonWS_of_pyStrip_eq_nil hnil
  have : a ∈ c.filter (fun x => !pyIsSpace x) := List.mem_filter.mpr ⟨ham, by simp [ha]⟩
  simp [hfil] at this

/-! ## Supporting lemmas: bounds on the break-point search -/

lemma wsRunLen_le (l : List Char) : wsRunLen l ≤ l.length := by
  induction l with
  | nil => simp [wsRunLen]
  | cons c cs ih =>
    by_cases h : pyIsSpace c
    · simp only [wsRunLen, if_pos h, List.length_cons]
      omega
    · simp [wsRunLen, h]

lemma lastNlInWsRun_lt {l : List Char} {j : Nat} (h : lastNlInWsRun l = some j) :
    j < l.length := by
  induction l generalizing j with
  | nil => simp [lastNlInWsRun] at h
  | cons c cs ih =>
    simp only [lastNlInWsRun] at h
    by_cases hs : pyIsSpace c
    · rw [if_pos hs] at h
      cases hr : lastNlInWsRun cs with
      | some j' =>
        rw [hr] at h
        cases h
        have := ih hr
        simp only [List.length_cons]
        omega
      | none =>
        rw [hr] at h
        by_cases hnl : c == '\n'
        · rw [if_pos hnl] at h
          cases h
          simp
        · rw [if_neg hnl] at h
          cases h
    · rw [if_neg hs] at h
      cases h

lemma matchSentEnd_bound {l : List Char} {e : Nat} (h : matchSentEnd l = some e) :
    1 ≤ e ∧ e ≤ l.length := by
  match l with
  | [] => simp [matchSentEnd] at h
  | [c] => simp [matchSentEnd] at h
  | c :: d :: rest =>
    simp only [matchSentEnd] at h
    split at h
    · cases h
      have := wsRunLen_le rest
      simp only [List.length_cons]
      omega
    · cases h

lemma matchComma_bound {l : List Char} {e : Nat} (h : matchComma l = some e) :
    1 ≤ e ∧ e ≤ l.length := by
  match l with
  | [] => simp [matchComma] at h
  | [c] => simp [matchComma] at h
  | c :: d :: rest =>
    simp only [matchComma] at h
    split at h
    · cases h
      have := wsRunLen_le rest
      simp only [List.length_cons]
      omega
    · cases h

lemma matchWsRun_bound {l : List Char} {e : Nat} (h : matchWsRun l = some e) :
    1 ≤ e ∧ e ≤ l.length := by
  match l with
  | [] => simp [matchWsRun] at h
  | c :: cs =>
    simp only [matchWsRun] at h
    split at h
    · cases h
      have := wsRunLen_le cs
      simp only [List.length_cons]
      omega
    · cases h

lemma matchParaBreak_bound {l : List Char} {e : Nat} (h : matchParaBreak l = some e) :
    1 ≤ e ∧ e ≤ l.length := by
  match l with
  | [] => simp [matchParaBreak] at h
  | c :: rest =>
    simp only [matchParaBreak] at h
    split at h
    · cases hr : lastNlInWsRun rest with
      | some j =>
        rw [hr] at h
        cases h
        have := lastNlInWsRun_lt hr
        simp only [List.length_cons]
        omega
      | none => rw [hr] at h; cases h
    · cases h

lemma lastMatchEndGo_bound {f : List Char → Option Nat}
    (hf : ∀ l e, f l = some e → 1 ≤ e ∧ e ≤ l.length) :
    ∀ (s : List Char) (p : Nat) (acc : Option Nat) (r : Nat),
      lastMatchEndGo f p s acc = some r →
      acc = some r ∨ (p + 1 ≤ r ∧ r ≤ p + s.length) := by
  intro s
  induction s with
  | nil => exact fun p acc r h => Or.inl h
  | cons c cs ih =>
    intro p acc r h
    simp only [lastMatchEndGo] at h
    rcases ih (p + 1) _ r h with hacc | hbound
    · cases hf' : f (c :: cs) with
      | some e =>
        rw [hf'] at hacc
        cases hacc
        obtain ⟨he1, he2⟩ := hf _ _ hf'
        right
        simp only [List.length_cons] at he2 ⊢
        omega
      | none =>
        rw [hf'] at hacc
        exact Or.inl hacc
    · right
      simp only [List.length_cons]
      omega

lemma lastMatchEnd_bound {f : List Char → Option Nat}
    (hf : ∀ l e, f l = some e → 1 ≤ e ∧ e ≤ l.length)
    {s : List Char} {e : Nat} (h : lastMatchEnd f s = some e) :
    1 ≤ e ∧ e ≤ s.length := by
  rcases lastMatchEndGo_bound hf s 0 none e h with hacc | hb
  · cases hacc
  · omega

lemma findBreakEnd_bound {s : List Char} {e : Nat} (h : findBreakEnd s = some e) :
    1 ≤ e ∧ e ≤ s.length := by
  unfold findBreakEnd at h
  cases h1 : lastMatchEnd matchSentEnd s with
  | some e1 =>
    rw [h1] at h
    cases h
    exact lastMatchEnd_bound (fun _ _ => matchSentEnd_bound) h1
  | none =>
    rw [h1] at h
    cases h2 : lastMatchEnd matchParaBreak s with
    | some e2 =>
      rw [h2] at h
      cases h
      exact lastMatchEnd_bound (fun _ _ => matchParaBreak_bound) h2
    | none =>
      rw [h2] at h
      cases h3 : lastMatchEnd matchComma s with
      | some e3 =>
        rw [h3] at h
        cases h
        exact lastMatchEnd_bound (fun _ _ => matchComma_bound) h3
      | none =>
        rw [h3] at h
        exact lastMatchEnd_bound (fun _ _ => matchWsRun_bound) h

/-! ## Supporting lemmas: one loop iteration advances within bounds -/

lemma targetEndOf_ne {text : List Char} {cmax cur : Nat}
    (h : targetEndOf text cmax cur ≠ text.length) :
    targetEndOf text cmax cur = cur + cmax ∧ cur + cmax < text.length := by
  unfold targetEndOf at h ⊢
  omega

/-- In a non-final iteration the cut `actual_end` lies strictly beyond
`current_pos` and at most `current_pos + chunk_max`. -/
lemma actualEndOf_bounds {text : List Char} {cmin cmax cur : Nat}
    (hmm : cmin ≤ cmax) (hmax : 0 < cmax)
    (hne : targetEndOf text cmax cur ≠ text.length) :
    cur < actualEndOf text cmin cmax cur ∧ actualEndOf text cmin cmax cur ≤ cur + cmax := by
  obtain ⟨hte, _⟩ := targetEndOf_ne hne
  simp only [actualEndOf]
  cases hb : findBreakEnd (pySlice text (cur + cmin) (targetEndOf text cmax cur)) with
  | none =>
    simp only [hb, hte]
    omega
  | some e =>
    simp only [hb]
    have hbd := findBreakEnd_bound hb
    have hlen : (pySlice text (cur + cmin) (targetEndOf text cmax cur)).length
        ≤ targetEndOf text cmax cur - (cur + cmin) := by
      simp only [pySlice, List.length_take, List.length_drop]
      omega
    omega

/-! ## Loop invariants of `split_text_into_chunks` -/

/-- Every chunk the loop emits is some stripped substring, and is non-empty
(the `if chunk:` guard). -/
lemma mem_splitChunksLoop {text : List Char} {cmin cmax : Nat} :
    ∀ {fuel cur : Nat} {c : List Char}, c ∈ splitChunksLoop text cmin cmax fuel cur →
      (∃ s, c = pyStrip s) ∧ c ≠ [] := by
  intro fuel
  induction fuel with
  | zero =>
    intro cur c h
    simp [splitChunksLoop] at h
  | succ fuel ih =>
    intro cur c h
    by_cases h1 : cur < text.length
    · by_cases h2 : targetEndOf text cmax cur = text.length
      · simp only [splitChunksLoop, if_pos h1, if_pos h2] at h
        by_cases h3 : (pyStrip (text.drop cur)).isEmpty
        · simp [h3] at h
        · simp only [h3, Bool.false_eq_true, if_false, List.mem_singleton] at h
          subst h
          exact ⟨⟨_, rfl⟩, by simpa [List.isEmpty_iff] using h3⟩
      · simp only [splitChunksLoop, if_pos h1, if_neg h2] at h
        by_cases h3 : (pyStrip (pySlice text cur (actualEndOf text cmin cmax cur))).isEmpty
        · simp only [h3, if_true] at h
          exact ih h
        · simp only [h3, Bool.false_eq_true, if_false, List.mem_cons] at h
          rcases h with hc | hmem
          · subst hc
            exact ⟨⟨_, rfl⟩, by simpa [List.isEmpty_iff] using h3⟩
          · exact ih hmem
    · simp [splitChunksLoop, h1] at h

/-- C2: for positive bounds `0 < cmin ≤ cmax`, the scan position strictly
increases on every loop iteration (so segmentation terminates), and every
chunk in the returned sequence has non-empty trimmed text. -/
theorem split_progress_and_nonempty (text : List Char) (cmin cmax : Nat)
    (hmin : 0 < cmin) (hmm : cmin ≤ cmax) :
    (∀ cur, cur < text.length → targetEndOf text cmax cur ≠ text.length →
      cur < actualEndOf text cmin cmax cur)
    ∧ ∀ c ∈ split_text_into_chunks text cmin cmax, pyStrip c ≠ [] := by
  constructor
  · intro cur _ hne
    exact (actualEndOf_bounds hmm (lt_of_lt_of_le hmin hmm) hne).1
  · intro c hc
    obtain ⟨⟨s, rfl⟩, hne⟩ := mem_splitChunksLoop hc
    exact pyStrip_ne_nil_of_exists (exists_nonWS_of_pyStrip_ne_nil hne)

/-- Witness for `split_progress_and_nonempty`. -/
theorem split_progress_and_nonempty_witness : pyStrip "aaa".data ≠ [] :=
  (split_progress_and_nonempty "aaaa".data 2 3 (by decide) (by decide)).2
    "aaa".data (by decide)

lemma splitChunksLoop_length_le {text : List Char} {cmin cmax : Nat}
    (hmm : cmin ≤ cmax) (hmax : 0 < cmax) :
    ∀ {fuel cur : Nat} {c : List Char}, c ∈ splitChunksLoop text cmin cmax fuel cur →
      c.length ≤ cmax := by
  intro fuel
  induction fuel with
  | zero =>
    intro cur c h
    simp [splitChunksLoop] at h
  | succ fuel ih =>
    intro cur c h
    by_cases h1 : cur < text.length
    · by_cases h2 : targetEndOf text cmax cur = text.length
      · simp only [splitChunksLoop, if_pos h1, if_pos h2] at h
        by_cases h3 : (pyStrip (text.drop cur)).isEmpty
        · simp [h3] at h
        · simp only [h3, Bool.false_eq_true, if_false, List.mem_singleton] at h
          subst h
          have hlen : text.length ≤ cur + cmax := by
            unfold targetEndOf at h2
            omega
          calc (pyStrip (text.drop cur)).length
              ≤ (text.drop cur).length := pyStrip_length_le _
            _ ≤ cmax := by rw [List.length_drop]; omega
      · simp only [splitChunksLoop, if_pos h1, if_neg h2] at h
        have hb := actualEndOf_bounds hmm hmax h2
        by_cases h3 : (pyStrip (pySlice text cur (actualEndOf text cmin cmax cur))).isEmpty
        · simp only [h3, if_true] at h
          exact ih h
        · simp only [h3, Bool.false_eq_true, if_false, List.mem_cons] at h
          rcases h with hc | hmem
          · subst hc
            calc (pyStrip (pySlice text cur (actualEndOf text cmin cmax cur))).length
                ≤ (pySlice text cur (actualEndOf text cmin cmax cur)).length :=
                  pyStrip_length_le _
              _ ≤ cmax := by
                  simp only [pySlice, List.length_take, List.length_drop]
                  omega
          · exact ih hmem
    · simp [splitChunksLoop, h1] at h

/-- C10: for bounds `0 < cmin ≤ cmax` every returned chunk has at most
`cmax` characters (the final tail chunk included), while the final chunk is
not held to the lower bound: splitting `"aaaa"` with bounds `2..3` ends with
the chunk `"a"` of length `1 < 2`. -/
theorem chunk_length_bounds (text : List Char) (cmin cmax : Nat)
    (hmin : 0 < cmin) (hmm : cmin ≤ cmax) :
    (∀ c ∈ split_text_into_chunks text cmin cmax, c.length ≤ cmax)
    ∧ ((split_text_into_chunks "aaaa".data 2 3).getLast? = some "a".data
        ∧ "a".data.length < 2) := by
  refine ⟨fun c hc => splitChunksLoop_length_le hmm (lt_of_lt_of_le hmin hmm) hc, ?_, ?_⟩
  · decide
  · decide

/-- Witness for `chunk_length_bounds`. -/
theorem chunk_length_bounds_witness : "aaa".data.length ≤ 3 :=
  (chunk_length_bounds "aaaa".data 2 3 (by decide) (by decide)).1 "aaa".data (by decide)

/-! ## C1: segmentation preserves the text -/

/-- Concatenation re-inserting a single space at each cut point. -/
def joinWithSpace : List (List Char) → List Char
  | [] => []
  | [c] => c
  | c :: c' :: cs => c ++ ' ' :: joinWithSpace (c' :: cs)

lemma filter_nonWS_joinWithSpace (l : List (List Char)) :
    (joinWithSpace l).filter (fun c => !pyIsSpace c)
      = l.flatten.filter (fun c => !pyIsSpace c) := by
  induction l with
  | nil => rfl
  | cons c tail ih =>
    cases tail with
    | nil => simp [joinWithSpace]
    | cons c' rest =>
      simp only [joinWithSpace, List.flatten_cons, List.filter_append] at ih ⊢
      rw [List.filter_cons_of_neg (by simp [pyIsSpace])]
      rw [ih]

/-- The loop invariant behind C1: the non-whitespace characters of the
emitted chunks, in order, are exactly those of the unprocessed suffix. -/
lemma splitChunksLoop_filter_flatten {text : List Char} {cmin cmax : Nat}
    (hmin : 0 < cmin) (hmm : cmin ≤ cmax) :
    ∀ (fuel cur : Nat), text.length - cur ≤ fuel →
      (splitChunksLoop text cmin cmax fuel cur).flatten.filter (fun c => !pyIsSpace c)
        = (text.drop cur).filter (fun c => !pyIsSpace c) := by
  intro fuel
  induction fuel with
  | zero =>
    intro cur hfuel
    have : text.length ≤ cur := by omega
    rw [List.drop_eq_nil_of_le this]
    simp [splitChunksLoop]
  | succ fuel ih =>
    intro cur hfuel
    by_cases h1 : cur < text.length
    · by_cases h2 : targetEndOf text cmax cur = text.length
      · simp only [splitChunksLoop, if_pos h1, if_pos h2]
        by_cases h3 : (pyStrip (text.drop cur)).isEmpty
        · rw [if_pos h3]
          rw [List.isEmpty_iff] at h3
          simp [filter_nonWS_of_pyStrip_eq_nil h3]
        · rw [if_neg h3]
          simp [filter_nonWS_pyStrip]
      · have hb := actualEndOf_bounds hmm (lt_of_lt_of_le hmin hmm) h2
        set ae := actualEndOf text cmin cmax cur with hae
        have hsplit : (text.drop cur).filter (fun c => !pyIsSpace c)
            = (pySlice text cur ae).filter (fun c => !pyIsSpace c)
              ++ (text.drop ae).filter (fun c => !pyIsSpace c) := by
          rw [← List.filter_append]
          congr 1
          have : text.drop ae = (text.drop cur).drop (ae - cur) := by
            rw [List.drop_drop]
            congr 1
            omega
          rw [this, pySlice, List.take_append_drop]
        have hrec := ih ae (by omega)
        simp only [splitChunksLoop, if_pos h1, if_neg h2, ← hae]
        by_cases h3 : (pyStrip (pySlice text cur ae)).isEmpty
        · rw [if_pos h3]
          rw [List.isEmpty_iff] at h3
          rw [hsplit, filter_nonWS_of_pyStrip_eq_nil h3, List.nil_append]
          exact hrec
        · rw [if_neg h3]
          simp only [List.flatten_cons, List.filter_append]
          rw [filter_nonWS_pyStrip, hrec, hsplit]
    · have : text.length ≤ cur := by omega
      rw [List.drop_eq_nil_of_le this]
      simp [splitChunksLoop, h1]

/-- C1: for bounds `0 < cmin ≤ cmax`, concatenating the chunks with a single
space re-inserted at each cut point reproduces the input up to whitespace:
the sequence of non-whitespace characters is exactly that of the input — no
non-whitespace character is dropped or duplicated anywhere. -/
theorem segmentation_preserves_text (text : List Char) (cmin cmax : Nat)
    (hmin : 0 < cmin) (hmm : cmin ≤ cmax) :
    (joinWithSpace (split_text_into_chunks text cmin cmax)).filter (fun c => !pyIsSpace c)
      = text.filter (fun c => !pyIsSpace c) := by
  rw [filter_nonWS_joinWithSpace]
  have h := @splitChunksLoop_filter_flatten text cmin cmax hmin hmm (text.length + 1) 0
    (by omega)
  simpa using h

/-- Witness for `segmentation_preserves_text`. -/
theorem segmentation_preserves_text_witness :
    (joinWithSpace (split_text_into_chunks "ab. cd. efgh".data 2 6)).filter
        (fun c => !pyIsSpace c)
      = "ab. cd. efgh".data.filter (fun c => !pyIsSpace c) :=
  segmentation_preserves_text "ab. cd. efgh".data 2 6 (by decide) (by decide)

/-! ## C9: a batch with no successful chunk raises -/

lemma partitionResults_chunk_files_eq_nil_iff
    (rs : List (Nat × Option (List Char × Option (List Char)) × Option (List Char))) :
    (partitionResults rs).chunk_files = [] ↔ ∀ r ∈ rs, r.2.1 = none := by
  unfold partitionResults
  simp only []
  rw [List.filterMap_eq_nil_iff]
  constructor
  · exact fun h r hr => h r (List.mem_mergeSort.mpr hr)
  · exact fun h r hr => h r (List.mem_mergeSort.mp hr)

/-- C9: if every spawned task's synthesis fails, `generate_all_chunks`
raises the no-chunks-succeeded `RuntimeError`; if at least one task
succeeds, the call returns normally (it does not raise this error). -/
theorem batch_no_success_raises (synth : Nat → List Char → SynthOutcome)
    (chunks : List (List Char)) (mc : Nat) :
    ((∀ ic ∈ validTasks chunks, (synth ic.1 ic.2).isOk = false) →
      generate_all_chunks synth chunks mc
        = .error "No audio chunks were successfully generated".data)
    ∧ (∀ ic ∈ validTasks chunks, (synth ic.1 ic.2).isOk = true →
      ∃ out, generate_all_chunks synth chunks mc = .ok out) := by
  constructor
  · intro hall
    have hnil : (partitionResults (batchResults synth chunks)).chunk_files = [] := by
      rw [partitionResults_chunk_files_eq_nil_iff]
      intro r hr
      obtain ⟨ic, hic, rfl⟩ := List.mem_map.mp hr
      have hko := hall ic hic
      unfold generate_chunk_with_semaphore
      cases hs : synth ic.1 ic.2 with
      | ok p => rw [hs] at hko; simp [Except.isOk, Except.toBool] at hko
      | error e => simp
    unfold generate_all_chunks
    simp [hnil]
  · intro ic hic hok
    cases hs : synth ic.1 ic.2 with
    | error e => rw [hs] at hok; simp [Except.isOk, Except.toBool] at hok
    | ok p =>
      have hmem : p ∈ (partitionResults (batchResults synth chunks)).chunk_files := by
        unfold partitionResults
        simp only []
        rw [List.mem_filterMap]
        refine ⟨(ic.1, some p, none), List.mem_mergeSort.mpr ?_, rfl⟩
        unfold batchResults
        refine List.mem_map.mpr ⟨ic, hic, ?_⟩
        unfold generate_chunk_with_semaphore
        rw [hs]
      have hne : ¬ (partitionResults (batchResults synth chunks)).chunk_files.isEmpty := by
        rw [List.isEmpty_iff]
        intro hnil
        rw [hnil] at hmem
        cases hmem
      unfold generate_all_chunks
      simp only [hne, Bool.false_eq_true, if_false]
      exact ⟨_, rfl⟩

/-- A synthesis oracle that fails for every chunk. -/
def synthFailAll : Nat → List Char → SynthOutcome :=
  fun _ _ => .error "TTS generation failed".data

/-- Witness for `batch_no_success_raises`. -/
theorem batch_no_success_raises_witness :
    generate_all_chunks synthFailAll ["a".data, "b".data] 3
      = .error "No audio chunks were successfully generated".data :=
  (batch_no_success_raises synthFailAll ["a".data, "b".data] 3).1 (by decide)

/-! ## C4: partition of a batch into success and failure lists -/

lemma filterMap_errors_map_fst
    (l : List (Nat × Option (List Char × Option (List Char)) × Option (List Char))) :
    (l.filterMap (fun r =>
        match r.2.1 with
        | some _ => none
        | none => some (r.1, r.2.2))).map Prod.fst
      = (l.filter (fun r => !r.2.1.isSome)).map Prod.fst := by
  induction l with
  | nil => rfl
  | cons r t ih =>
    cases hr : r.2.1 with
    | some p => simp [List.filterMap_cons, List.filter_cons, hr, ih]
    | none => simp [List.filterMap_cons, List.filter_cons, hr, ih]

lemma generate_chunk_with_semaphore_fst (synth : Nat → List Char → SynthOutcome)
    (i : Nat) (c : List Char) : (generate_chunk_with_semaphore synth i c).1 = i := by
  unfold generate_chunk_with_semaphore
  cases synth i c <;> rfl

lemma batchResults_map_fst (synth : Nat → List Char → SynthOutcome)
    (chunks : List (List Char)) :
    (batchResults synth chunks).map Prod.fst = (validTasks chunks).map Prod.fst := by
  unfold batchResults
  rw [List.map_map]
  exact List.map_congr_left fun ic _ => generate_chunk_with_semaphore_fst synth ic.1 ic.2

/-- The five-chunk scenario of the claim. -/
def chunks5 : List (List Char) :=
  ["chunk one.".data, "chunk two.".data, "chunk three.".data,
   "chunk four.".data, "chunk five.".data]

/-- A synthesis oracle in which exactly the task for chunk 3 fails. -/
def synth3fail : Nat → List Char → SynthOutcome :=
  fun i _ =>
    if i = 3 then .error "synthesis failed".data
    else .ok ("p".data ++ Nat.toDigits 10 i, none)

/-- A synthesis oracle that succeeds for every chunk. -/
def synthAllOk : Nat → List Char → SynthOutcome :=
  fun _ _ => .ok ("p".data, none)

/-- C4 counterexample: with a whitespace-only input chunk, the success and
failure lists together do not cover every input chunk index — chunk 2 is
skipped before any task is spawned and appears in neither list. -/
theorem batch_coverage_counterexample :
    successIndexList (batchResults synthAllOk ["a".data, "  ".data])
        ++ failureIndexList (batchResults synthAllOk ["a".data, "  ".data]) = [1]
    ∧ (enumFrom 1 (["a".data, "  ".data] : List (List Char))).map Prod.fst = [1, 2]
    ∧ ¬ (([1] : List Nat).Perm [1, 2]) := by
  have hs : (batchResults synthAllOk ["a".data, "  ".data]).mergeSort
        (fun a b => Nat.ble a.1 b.1)
      = batchResults synthAllOk ["a".data, "  ".data] :=
    List.mergeSort_of_sorted (by decide)
  refine ⟨?_, by decide, by decide⟩
  simp only [successIndexList, failureIndexList, partitionResults]
  rw [hs]
  decide

/-- C4 amended: a batch of 5 chunks with concurrency limit 2 whose task for
chunk 3 alone fails returns (does not raise) the success list holding
exactly the results for chunks 1,2,4,5 in ascending-index order and the
failure list holding exactly index 3 with its error; in general the success
and failure lists together cover exactly the indices of the input chunks
with non-empty trimmed text, each exactly once (whitespace-only chunks are
skipped and appear in neither list). -/
theorem batch_partition_covers (synth : Nat → List Char → SynthOutcome)
    (chunks : List (List Char)) :
    ((successIndexList (batchResults synth chunks)
        ++ failureIndexList (batchResults synth chunks)).Perm
      ((validTasks chunks).map Prod.fst))
    ∧ generate_all_chunks synth3fail chunks5 2
        = .ok ⟨[("p1".data, none), ("p2".data, none), ("p4".data, none), ("p5".data, none)],
               [(3, some "synthesis failed".data)]⟩ := by
  constructor
  · unfold successIndexList failureIndexList partitionResults
    simp only []
    rw [filterMap_errors_map_fst, ← List.map_append]
    refine ((List.filter_append_perm _ _).map Prod.fst).trans ?_
    refine (((batchResults synth chunks).mergeSort_perm _).map Prod.fst).trans ?_
    rw [batchResults_map_fst]
  · have hs : (batchResults synth3fail chunks5).mergeSort (fun a b => Nat.ble a.1 b.1)
        = batchResults synth3fail chunks5 :=
      List.mergeSort_of_sorted (by decide)
    simp only [generate_all_chunks, partitionResults]
    rw [hs]
    decide

/-! ## C8: failure of a single chunk's synthesis -/

lemma fsExists_cons (e : List Char × FileData) (t : FS) (p : List Char) :
    fsExists (e :: t) p = ((e.1 == p) || fsExists t p) := by
  unfold fsExists fsGet
  rw [List.find?_cons]
  cases h : (e.1 == p) with
  | true => rw [Bool.true_or]; rfl
  | false => rw [Bool.false_or]

lemma fsExists_false_iff (fs : FS) (p : List Char) :
    fsExists fs p = false ↔ ∀ e ∈ fs, (e.1 == p) = false := by
  induction fs with
  | nil =>
    refine ⟨fun _ e he => absurd he (List.not_mem_nil e), fun _ => rfl⟩
  | cons e t ih => simp [fsExists_cons, ih]

lemma fsExists_fsDelete_self (fs : FS) (p : List Char) :
    fsExists (fsDelete fs p) p = false := by
  rw [fsExists_false_iff]
  intro e he
  have := (List.mem_filter.mp he).2
  simpa using this

lemma fsExists_fsDelete_of_false {fs : FS} {p : List Char} (q : List Char)
    (h : fsExists fs p = false) : fsExists (fsDelete fs q) p = false := by
  rw [fsExists_false_iff] at h ⊢
  exact fun e he => h e (List.mem_filter.mp he).1

lemma fsExists_deleteIfExists_self (fs : FS) (p : List Char) :
    fsExists (deleteIfExists fs p) p = false := by
  unfold deleteIfExists
  by_cases h : fsExists fs p = true
  · rw [if_pos h]
    exact fsExists_fsDelete_self fs p
  · rw [if_neg h]
    simpa using h

lemma fsExists_deleteIfExists_of_false {fs : FS} {p : List Char} (q : List Char)
    (h : fsExists fs p = false) : fsExists (deleteIfExists fs q) p = false := by
  unfold deleteIfExists
  split
  · exact fsExists_fsDelete_of_false q h
  · exact h

/-- After the `except` clean-up the audio artifact is gone. -/
lemma cleanup_removes_audio (fs : FS) (out : List Char) (srtp : Option (List Char)) :
    fsExists (cleanupArtifacts fs out srtp) out = false := by
  cases srtp with
  | none => exact fsExists_deleteIfExists_self fs out
  | some sp =>
    exact fsExists_deleteIfExists_of_false sp (fsExists_deleteIfExists_self fs out)

/-- After the `except` clean-up the addressed subtitle artifact is gone. -/
lemma cleanup_removes_srt (fs : FS) (out sp : List Char) :
    fsExists (cleanupArtifacts fs out (some sp)) sp = false :=
  fsExists_deleteIfExists_self _ sp

lemma fsGet_fsSet_self (fs : FS) (p : List Char) (v : FileData) :
    fsGet (fsSet fs p v) p = some v := by
  simp [fsGet, fsSet, List.find?_cons]

lemma fsExists_fsSet_self (fs : FS) (p : List Char) (v : FileData) :
    fsExists (fsSet fs p v) p = true := by
  simp [fsExists, fsGet_fsSet_self]

lemma fsSize_fsSet_self (fs : FS) (p : List Char) (v : FileData) :
    fsSize (fsSet fs p v) p = v.size := by
  simp [fsSize, fsGet_fsSet_self]

lemma fsGet_fsSet_ne {p q : List Char} (fs : FS) (v : FileData) (h : p ≠ q) :
    fsGet (fsSet fs q v) p = fsGet fs p := by
  have hb : (q == p) = false := by
    simp only [beq_eq_false_iff_ne, ne_eq]
    exact fun hqp => h hqp.symm
  simp only [fsSet, fsGet, List.find?_cons, hb]
  induction fs with
  | nil => rfl
  | cons e t ih =>
    simp only [fsDelete, List.filter_cons]
    by_cases he : (e.1 == q) = true
    · have hep : (e.1 == p) = false := by
        rw [beq_iff_eq] at he
        simp only [beq_eq_false_iff_ne, ne_eq, he]
        exact fun hqp => h hqp.symm
      simp only [he, Bool.not_true, if_false, List.find?_cons, hep]
      simpa [fsDelete] using ih
    · simp only [Bool.not_eq_true] at he
      simp only [he, Bool.not_false, if_true, List.find?_cons]
      cases hep : (e.1 == p) with
      | true => rfl
      | false => simpa [fsDelete] using ih

lemma fsExists_fsSet_ne {p q : List Char} (fs : FS) (v : FileData) (h : p ≠ q) :
    fsExists (fsSet fs q v) p = fsExists fs p := by
  unfold fsExists
  rw [fsGet_fsSet_ne fs v h]

lemma fsSize_fsSet_ne {p q : List Char} (fs : FS) (v : FileData) (h : p ≠ q) :
    fsSize (fsSet fs q v) p = fsSize fs p := by
  unfold fsSize
  rw [fsGet_fsSet_ne fs v h]

/-- The audio and subtitle artifact names of one chunk differ. -/
lemma chunkNames_ne (pfx : List Char) (n : Nat) :
    chunkMp3Name pfx n ≠ chunkSrtName pfx n := by
  unfold chunkMp3Name chunkSrtName
  intro h
  have h1 := List.append_cancel_left h
  have h2 : padNum 3 n ++ ".mp3".data = padNum 3 n ++ ".srt".data := by
    injection h1
  have h3 := List.append_cancel_left h2
  simp [String.data] at h3

/-- Closed form of `generate_chunk_audio_robust` when the streaming call
raises. -/
lemma generate_chunk_audio_robust_raise (fs : FS) (n : Nat) (pfx : List Char)
    (gsrt : Bool) (events : List TtsEvent) (msg : List Char) :
    generate_chunk_audio_robust fs n pfx gsrt events (some msg)
      = (cleanupArtifacts
           (fsSet fs (chunkMp3Name pfx n)
             (.bytes (events.foldl (streamStep gsrt) ([], SRTMaker.init)).1))
           (chunkMp3Name pfx n)
           (if gsrt then some (chunkSrtName pfx n) else none),
         .error (chunkError n msg)) := rfl

/-- C8: whenever a single chunk's synthesis fails — the streaming call
raises, or the audio artifact is empty after stream exhaustion — the
operation deletes the partial audio artifact (and the subtitle artifact
when subtitle generation was requested) and fails with an error identifying
the chunk; and it never returns success with a missing or empty audio
artifact. -/
theorem chunk_failure_cleanup (fs : FS) (n : Nat) (pfx : List Char)
    (gsrt : Bool) (events : List TtsEvent) :
    (∀ msg,
      (generate_chunk_audio_robust fs n pfx gsrt events (some msg)).2
          = .error (chunkError n msg)
        ∧ fsExists (generate_chunk_audio_robust fs n pfx gsrt events (some msg)).1
            (chunkMp3Name pfx n) = false
        ∧ (gsrt = true →
            fsExists (generate_chunk_audio_robust fs n pfx gsrt events (some msg)).1
              (chunkSrtName pfx n) = false))
    ∧ ((events.foldl (streamStep gsrt) ([], SRTMaker.init)).1 = [] →
        (generate_chunk_audio_robust fs n pfx gsrt events none).2
            = .error (chunkError n
                ("Output file is empty: ".data ++ chunkMp3Name pfx n))
          ∧ fsExists (generate_chunk_audio_robust fs n pfx gsrt events none).1
              (chunkMp3Name pfx n) = false
          ∧ (gsrt = true →
              fsExists (generate_chunk_audio_robust fs n pfx gsrt events none).1
                (chunkSrtName pfx n) = false))
    ∧ (∀ p sp, (generate_chunk_audio_robust fs n pfx gsrt events none).2 = .ok (p, sp) →
        fsExists (generate_chunk_audio_robust fs n pfx gsrt events none).1 p = true
          ∧ fsSize (generate_chunk_audio_robust fs n pfx gsrt events none).1 p ≠ 0) := by
  refine ⟨?_, ?_, ?_⟩
  · intro msg
    rw [generate_chunk_audio_robust_raise]
    refine ⟨rfl, cleanup_removes_audio _ _ _, fun hg => ?_⟩
    simp only [hg, if_true]
    exact cleanup_removes_srt _ _ _
  · intro hempty
    have hform : generate_chunk_audio_robust fs n pfx gsrt events none
        = (cleanupArtifacts
             (fsSet fs (chunkMp3Name pfx n)
               (.bytes (events.foldl (streamStep gsrt) ([], SRTMaker.init)).1))
             (chunkMp3Name pfx n)
             (if gsrt then some (chunkSrtName pfx n) else none),
           .error (chunkError n
             ("Output file is empty: ".data ++ chunkMp3Name pfx n))) := by
      unfold generate_chunk_audio_robust
      simp only [fsExists_fsSet_self, Bool.not_true, Bool.false_eq_true, if_false,
        fsSize_fsSet_self, hempty, FileData.size, List.length_nil, if_pos rfl, if_true]
    rw [hform]
    refine ⟨rfl, cleanup_removes_audio _ _ _, fun hg => ?_⟩
    simp only [hg, if_true]
    exact cleanup_removes_srt _ _ _
  · intro p sp hok
    have hne : (events.foldl (streamStep gsrt) ([], SRTMaker.init)).1 ≠ [] := by
      intro hempty
      have hform : (generate_chunk_audio_robust fs n pfx gsrt events none).2
          = .error (chunkError n
              ("Output file is empty: ".data ++ chunkMp3Name pfx n)) := by
        unfold generate_chunk_audio_robust
        simp only [fsExists_fsSet_self, Bool.not_true, Bool.false_eq_true, if_false,
          fsSize_fsSet_self, hempty, FileData.size, List.length_nil, if_pos rfl, if_true]
      rw [hform] at hok
      cases hok
    have hsz : fsSize (fsSet fs (chunkMp3Name pfx n)
          (.bytes (events.foldl (streamStep gsrt) ([], SRTMaker.init)).1))
          (chunkMp3Name pfx n) ≠ 0 := by
      rw [fsSize_fsSet_self]
      simpa [FileData.size, List.length_eq_zero] using hne
    have hex : fsExists (fsSet fs (chunkMp3Name pfx n)
          (.bytes (events.foldl (streamStep gsrt) ([], SRTMaker.init)).1))
          (chunkMp3Name pfx n) = true := fsExists_fsSet_self _ _ _
    unfold generate_chunk_audio_robust at hok ⊢
    simp only [fsExists_fsSet_self, Bool.not_true, Bool.false_eq_true, if_false,
      if_neg hsz] at hok ⊢
    cases hg : gsrt with
    | false =>
      rw [hg] at hex hsz
      simp only [hg, Bool.false_eq_true, if_false] at hok ⊢
      cases hok
      exact ⟨hex, hsz⟩
    | true =>
      rw [hg] at hex hsz
      simp only [hg, if_true] at hok ⊢
      by_cases hc : (get_srt ((events.foldl (streamStep true) ([], SRTMaker.init)).2)).isEmpty
      · simp only [hc, if_true] at hok ⊢
        cases hok
        exact ⟨hex, hsz⟩
      · simp only [hc, Bool.false_eq_true, if_false] at hok ⊢
        cases hok
        constructor
        · rw [fsExists_fsSet_ne _ _ (chunkNames_ne pfx n)]
          exact hex
        · rw [fsSize_fsSet_ne _ _ (chunkNames_ne pfx n)]
          exact hsz

/-- Witness for `chunk_failure_cleanup`. -/
theorem chunk_failure_cleanup_witness :
    (generate_chunk_audio_robust [] 3 "story".data true [] none).2
      = .error (chunkError 3
          ("Output file is empty: ".data ++ chunkMp3Name "story".data 3)) :=
  ((chunk_failure_cleanup [] 3 "story".data true []).2.1 (by decide)).1

/-! ## C3: the cut point is the last break of highest priority in the window

The definitions prefixed `spec…` follow the spec's wording (§4.1, claim C3):
"search the window for the LAST occurrence of each break pattern, in strict
priority order" — expressed as the greatest window position satisfying a
character-level predicate, with the cut placed after the break.  They are
compared against the source embedding (`findBreakEnd`, which models the
`re.finditer`-scan of the source) in `findBreakEnd_eq_spec`. -/

/-- The greatest index `< n` satisfying `q` (the "last occurrence"). -/
def lastIdxWhere (q : Nat → Bool) : Nat → Option Nat
  | 0 => none
  | n + 1 => if q n then some n else lastIdxWhere q n

/-- "A sentence terminator (`.`, `!`, `?`) immediately followed by
whitespace" starts at window position `p`. -/
def specSentAt (s : List Char) (p : Nat) : Bool :=
  match s.drop p with
  | c :: d :: _ => isSentEnd c && pyIsSpace d
  | _ => false

/-- "Cut after the whitespace run" following the terminator at `p`. -/
def specSentCutAt (s : List Char) (p : Nat) : Nat :=
  p + 1 + wsRunLen (s.drop (p + 1))

/-- A blank-line (paragraph) break starts at window position `p`: a newline
with another newline later in the same whitespace run. -/
def specParaAt (s : List Char) (p : Nat) : Bool :=
  match s.drop p with
  | c :: rest => c == '\n' && (lastNlInWsRun rest).isSome
  | [] => false

/-- Cut just after the last newline of the run of the break at `p`. -/
def specParaCutAt (s : List Char) (p : Nat) : Nat :=
  p + (lastNlInWsRun (s.drop (p + 1))).getD 0 + 2

/-- A comma immediately followed by whitespace starts at `p`. -/
def specCommaAt (s : List Char) (p : Nat) : Bool :=
  match s.drop p with
  | c :: d :: _ => c == ',' && pyIsSpace d
  | _ => false

/-- Cut after the whitespace run following the comma at `p`. -/
def specCommaCutAt (s : List Char) (p : Nat) : Nat :=
  p + 1 + wsRunLen (s.drop (p + 1))

/-- A whitespace run starts at `p`. -/
def specWsAt (s : List Char) (p : Nat) : Bool :=
  match s.drop p with
  | c :: _ => pyIsSpace c
  | [] => false

/-- Cut after the whitespace run at `p`. -/
def specWsCutAt (s : List Char) (p : Nat) : Nat :=
  p + wsRunLen (s.drop p)

def specLastSentCut (s : List Char) : Option Nat :=
  (lastIdxWhere (specSentAt s) s.length).map (specSentCutAt s)

def specLastParaCut (s : List Char) : Option Nat :=
  (lastIdxWhere (specParaAt s) s.length).map (specParaCutAt s)

def specLastCommaCut (s : List Char) : Option Nat :=
  (lastIdxWhere (specCommaAt s) s.length).map (specCommaCutAt s)

def specLastWsCut (s : List Char) : Option Nat :=
  (lastIdxWhere (specWsAt s) s.length).map (specWsCutAt s)

/-- The spec's strict priority cascade over the window: sentence end, then
paragraph break, then comma, then whitespace; `none` means the hard cut. -/
def specBreakCut (s : List Char) : Option Nat :=
  match specLastSentCut s with
  | some e => some e
  | none =>
    match specLastParaCut s with
    | some e => some e
    | none =>
      match specLastCommaCut s with
      | some e => some e
      | none => specLastWsCut s

lemma lastIdxWhere_none {q : Nat → Bool} {n : Nat} (h : lastIdxWhere q n = none) :
    ∀ p < n, q p = false := by
  induction n with
  | zero => intro p hp; omega
  | succ n ih =>
    simp only [lastIdxWhere] at h
    by_cases hq : q n = true
    · rw [if_pos hq] at h
      cases h
    · rw [if_neg hq] at h
      intro p hp
      rcases Nat.lt_succ_iff_lt_or_eq.mp hp with hlt | rfl
      · exact ih h p hlt
      · simpa using hq

lemma lastIdxWhere_some {q : Nat → Bool} {n p : Nat} (h : lastIdxWhere q n = some p) :
    q p = true ∧ p < n ∧ ∀ j, p < j → j < n → q j = false := by
  induction n with
  | zero => simp [lastIdxWhere] at h
  | succ n ih =>
    simp only [lastIdxWhere] at h
    by_cases hq : q n = true
    · rw [if_pos hq] at h
      cases h
      exact ⟨hq, by omega, fun j hj1 hj2 => by omega⟩
    · rw [if_neg hq] at h
      obtain ⟨h1, h2, h3⟩ := ih h
      refine ⟨h1, by omega, fun j hj1 hj2 => ?_⟩
      rcases Nat.lt_succ_iff_lt_or_eq.mp hj2 with hlt | rfl
      · exact h3 j hj1 hlt
      · simpa using hq

lemma lastMatchEndGo_eq_acc {f : List Char → Option Nat} :
    ∀ (s : List Char) (p : Nat) (acc : Option Nat),
      (∀ i < s.length, f (s.drop i) = none) →
      lastMatchEndGo f p s acc = acc := by
  intro s
  induction s with
  | nil => intro p acc _; rfl
  | cons c cs ih =>
    intro p acc hall
    simp only [lastMatchEndGo]
    have h0 : f (c :: cs) = none := by simpa using hall 0 (by simp)
    rw [h0]
    exact ih (p + 1) acc fun i hi => by
      simpa [List.drop_succ_cons] using hall (i + 1) (by simpa using Nat.succ_lt_succ hi)

lemma lastMatchEndGo_last {f : List Char → Option Nat} :
    ∀ (s : List Char) (i p : Nat) (acc : Option Nat) (e : Nat),
      i < s.length → f (s.drop i) = some e →
      (∀ j, i < j → j < s.length → f (s.drop j) = none) →
      lastMatchEndGo f p s acc = some (p + i + e) := by
  intro s
  induction s with
  | nil =>
    intro i p acc e hi _ _
    simp at hi
  | cons c cs ih =>
    intro i p acc e hi hf hafter
    simp only [lastMatchEndGo]
    cases i with
    | zero =>
      simp only [List.drop_zero] at hf
      rw [hf]
      have hnone : ∀ i' < cs.length, f (cs.drop i') = none := fun i' hi' => by
        simpa [List.drop_succ_cons] using
          hafter (i' + 1) (by omega) (by simpa using Nat.succ_lt_succ hi')
      rw [lastMatchEndGo_eq_acc cs (p + 1) _ hnone]
      simp
    | succ i' =>
      have hf' : f (cs.drop i') = some e := by simpa [List.drop_succ_cons] using hf
      have hafter' : ∀ j, i' < j → j < cs.length → f (cs.drop j) = none :=
        fun j hj1 hj2 => by
          simpa [List.drop_succ_cons] using
            hafter (j + 1) (by omega) (by simpa using Nat.succ_lt_succ hj2)
      have hrec := ih i' (p + 1)
        (match f (c :: cs) with
         | some e => some (p + e)
         | none => acc) e (by simpa using hi) hf' hafter'
      rw [hrec]
      have : p + 1 + i' + e = p + (i' + 1) + e := by omega
      rw [this]

/-- The scan semantics of `re.finditer`'s last match coincides with the
"greatest matching window position" semantics, given a pointwise
correspondence between the matcher and the spec's predicate/cut pair. -/
lemma lastMatchEnd_eq_spec {f : List Char → Option Nat} {q : Nat → Bool} {cut : Nat → Nat}
    (s : List Char)
    (hg : ∀ p, p < s.length →
      match f (s.drop p) with
      | some e => q p = true ∧ p + e = cut p
      | none => q p = false) :
    lastMatchEnd f s = (lastIdxWhere q s.length).map cut := by
  cases hl : lastIdxWhere q s.length with
  | none =>
    have hnone : ∀ i < s.length, f (s.drop i) = none := by
      intro i hi
      have hq := lastIdxWhere_none hl i hi
      have hgi := hg i hi
      cases hfi : f (s.drop i) with
      | some e => rw [hfi] at hgi; rw [hgi.1] at hq; cases hq
      | none => rfl
    unfold lastMatchEnd
    rw [lastMatchEndGo_eq_acc s 0 none hnone]
    rfl
  | some pm =>
    obtain ⟨hq, hlt, hafter⟩ := lastIdxWhere_some hl
    have hgp := hg pm hlt
    cases hfp : f (s.drop pm) with
    | none =>
      rw [hfp] at hgp
      rw [hgp] at hq
      cases hq
    | some e =>
      rw [hfp] at hgp
      have hnone : ∀ j, pm < j → j < s.length → f (s.drop j) = none := by
        intro j hj1 hj2
        have hqj := hafter j hj1 hj2
        have hgj := hg j hj2
        cases hfj : f (s.drop j) with
        | some e' => rw [hfj] at hgj; rw [hgj.1] at hqj; cases hqj
        | none => rfl
      unfold lastMatchEnd
      rw [lastMatchEndGo_last s pm 0 none e hlt hfp hnone]
      simp only [Option.map_some', Nat.zero_add]
      rw [hgp.2]

lemma drop_succ_eq {s : List Char} {p : Nat} {c : Char} {rest : List Char}
    (hd : s.drop p = c :: rest) : s.drop (p + 1) = rest := by
  have : s.drop (p + 1) = (s.drop p).drop 1 := by
    rw [List.drop_drop]
  rw [this, hd, List.drop_one, List.tail_cons]

lemma hg_sent (s : List Char) : ∀ p, p < s.length →
    match matchSentEnd (s.drop p) with
    | some e => specSentAt s p = true ∧ p + e = specSentCutAt s p
    | none => specSentAt s p = false := by
  intro p hp
  cases hd : s.drop p with
  | nil => simp [matchSentEnd, specSentAt, hd]
  | cons c rest =>
    cases rest with
    | nil => simp [matchSentEnd, specSentAt, hd]
    | cons d rest' =>
      simp only [matchSentEnd, specSentAt, hd]
      by_cases hc : (isSentEnd c && pyIsSpace d) = true
      · rw [if_pos hc]
        refine ⟨hc, ?_⟩
        have hdsp : pyIsSpace d = true := by
          cases hpd : pyIsSpace d
          · rw [hpd, Bool.and_false] at hc
            cases hc
          · rfl
        unfold specSentCutAt
        rw [drop_succ_eq hd]
        simp only [wsRunLen, hdsp, if_pos]
        omega
      · rw [if_neg hc]
        simpa using hc

lemma hg_comma (s : List Char) : ∀ p, p < s.length →
    match matchComma (s.drop p) with
    | some e => specCommaAt s p = true ∧ p + e = specCommaCutAt s p
    | none => specCommaAt s p = false := by
  intro p hp
  cases hd : s.drop p with
  | nil => simp [matchComma, specCommaAt, hd]
  | cons c rest =>
    cases rest with
    | nil => simp [matchComma, specCommaAt, hd]
    | cons d rest' =>
      simp only [matchComma, specCommaAt, hd]
      by_cases hc : (c == ',' && pyIsSpace d) = true
      · rw [if_pos hc]
        refine ⟨hc, ?_⟩
        have hdsp : pyIsSpace d = true := by
          cases hpd : pyIsSpace d
          · rw [hpd, Bool.and_false] at hc
            cases hc
          · rfl
        unfold specCommaCutAt
        rw [drop_succ_eq hd]
        simp only [wsRunLen, hdsp, if_pos]
        omega
      · rw [if_neg hc]
        simpa using hc

lemma hg_ws (s : List Char) : ∀ p, p < s.length →
    match matchWsRun (s.drop p) with
    | some e => specWsAt s p = true ∧ p + e = specWsCutAt s p
    | none => specWsAt s p = false := by
  intro p hp
  cases hd : s.drop p with
  | nil => simp [matchWsRun, specWsAt, hd]
  | cons c cs =>
    simp only [matchWsRun, specWsAt, hd]
    by_cases hc : pyIsSpace c = true
    · rw [if_pos hc]
      refine ⟨hc, ?_⟩
      unfold specWsCutAt
      rw [hd]
      simp only [wsRunLen, hc, if_pos]
      omega
    · rw [if_neg hc]
      simpa using hc

lemma hg_para (s : List Char) : ∀ p, p < s.length →
    match matchParaBreak (s.drop p) with
    | some e => specParaAt s p = true ∧ p + e = specParaCutAt s p
    | none => specParaAt s p = false := by
  intro p hp
  cases hd : s.drop p with
  | nil => simp [matchParaBreak, specParaAt, hd]
  | cons c rest =>
    simp only [matchParaBreak, specParaAt, hd]
    by_cases hc : (c == '\n') = true
    · rw [if_pos hc]
      cases hj : lastNlInWsRun rest with
      | none => simp [hc, hj]
      | some j =>
        refine ⟨by simp [hc, hj], ?_⟩
        unfold specParaCutAt
        rw [drop_succ_eq hd, hj]
        simp only [Option.getD_some]
        omega
    · rw [if_neg hc]
      simp [hc]

/-- The source's break-point search equals the spec's priority cascade of
last-occurrence cuts. -/
lemma findBreakEnd_eq_spec (s : List Char) : findBreakEnd s = specBreakCut s := by
  unfold findBreakEnd specBreakCut specLastSentCut specLastParaCut specLastCommaCut
    specLastWsCut
  rw [lastMatchEnd_eq_spec s (hg_sent s), lastMatchEnd_eq_spec s (hg_para s),
    lastMatchEnd_eq_spec s (hg_comma s), lastMatchEnd_eq_spec s (hg_ws s)]

/-- C3: when the target end is strictly inside the text, the cut is chosen
by searching the window `[cur + cmin, cur + cmax)` in the spec's strict
priority order — last sentence terminator followed by whitespace (cut after
the whitespace run), else last blank-line break, else last comma followed
by whitespace, else last whitespace run, else the hard cut exactly at the
target end. -/
theorem cut_point_priority (text : List Char) (cmin cmax cur : Nat)
    (_hmin : 0 < cmin) (_hmm : cmin ≤ cmax)
    (hlt : cur + cmax < text.length) :
    actualEndOf text cmin cmax cur
      = match specBreakCut (pySlice text (cur + cmin) (cur + cmax)) with
        | some e => (cur + cmin) + e
        | none => cur + cmax := by
  have hte : targetEndOf text cmax cur = cur + cmax := by
    unfold targetEndOf
    omega
  simp only [actualEndOf]
  rw [hte, findBreakEnd_eq_spec]

/-- Witness for `cut_point_priority`. -/
theorem cut_point_priority_witness :
    actualEndOf "ab. cd. efgh".data 2 6 0
      = match specBreakCut (pySlice "ab. cd. efgh".data (0 + 2) (0 + 6)) with
        | some e => (0 + 2) + e
        | none => 0 + 6 :=
  cut_point_priority "ab. cd. efgh".data 2 6 0 (by decide) (by decide) (by decide)

end AudioTool
